import Mathlib

/-!
Verification of the LEHTORE admin-panel reconciliation store and publish
protocol (src/js/admin.js) and of the batch photo processor
(src/scripts/process-photos.js).

Embedding conventions:
- The mutable browser session object `state` of admin.js is modelled by the
  structure `AdminState`; every admin.js function that mutates `state`
  becomes a pure Lean function from `AdminState` to `AdminState`.
- JS objects used as string-keyed maps (`state.dirty`) are modelled by
  association lists with JS assignment/deletion semantics (assignment
  replaces the value in place for an existing key, otherwise appends;
  `delete` removes the key).
- Remote HTTP I/O (fetch) is modelled by oracles: each fetch performed by a
  publish run takes its outcome (`FetchOutcome`) from the `Oracle` record.
  A rejected fetch promise is `netErr`, a completed response with an error
  status is `httpErr`, and `ok` carries the decoded payload.  Thrown JS
  exceptions are modelled with `Except`.
- `JSON.stringify({photos: merged}, null, 2)` is deterministic and
  injective on the photo list, so the content handed to the conditional
  manifest write is modelled by the photo list itself.
- DOM reads/writes, toasts and the confirm dialog are presentation-only;
  the confirm dialog outcome is kept as an explicit boolean argument of
  `markForDelete`, the rest is dropped.
-/

set_option autoImplicit false

namespace Lehtore

/-- A photo record of the manifest `photos.json` (fields as produced by
process-photos.js and edited by admin.js).  The empty JS object `{}` that
`applyDraft` can fall back to is modelled by `emptyPhoto` below (all fields
at their empty/zero defaults). -/
structure Photo where
  id          : String
  src         : String
  thumb       : String
  title       : String
  description : String
  location    : String
  date        : String
  category    : String
  tags        : List String
  camera      : String
  width       : Nat
  height      : Nat
  featured    : Bool
deriving DecidableEq, Repr

/-- The empty record: model of the JS empty object `{}` used as the merge
base by `applyDraft` when the id resolves to no record. -/
def emptyPhoto : Photo :=
  { id := "", src := "", thumb := "", title := "", description := ""
  , location := "", date := "", category := "", tags := [], camera := ""
  , width := 0, height := 0, featured := false }

/-- The partial change object passed to `applyDraft` in admin.js.  Call
sites (`autoSave`, `addTag`, `removeTag`) only ever pass the metadata
fields below; `id`, `src`, `thumb`, `camera`, `width`, `height` are never
part of a draft. -/
structure Patch where
  title       : Option String := none
  location    : Option String := none
  date        : Option String := none
  description : Option String := none
  category    : Option String := none
  featured    : Option Bool := none
  tags        : Option (List String) := none
deriving DecidableEq, Repr

/-- JS object spread `\x7b ...base, ...patch \x7d`: fields present in the
patch override the base. -/
def mergePatch (base : Photo) (pc : Patch) : Photo :=
  { base with
    title := pc.title.getD base.title
  , location := pc.location.getD base.location
  , date := pc.date.getD base.date
  , description := pc.description.getD base.description
  , category := pc.category.getD base.category
  , featured := pc.featured.getD base.featured
  , tags := pc.tags.getD base.tags }

/-- The dirty overlay `state.dirty`: a JS object keyed by photo id. -/
abbrev Overlay := List (String × Photo)

/-- `state.dirty[id]` (read): first entry with the given key. -/
def dirtyLookup : Overlay → String → Option Photo
  | [], _ => none
  | e :: rest, k => if e.1 = k then some e.2 else dirtyLookup rest k

/-- `state.dirty[id] = v` (JS assignment): replace in place when the key
exists, otherwise append. -/
def dirtyInsert : Overlay → String → Photo → Overlay
  | [], k, v => [(k, v)]
  | e :: rest, k, v => if e.1 = k then (k, v) :: rest else e :: dirtyInsert rest k v

/-- `delete state.dirty[id]`. -/
def dirtyErase : Overlay → String → Overlay
  | [], _ => []
  | e :: rest, k => if e.1 = k then dirtyErase rest k else e :: dirtyErase rest k

/-- `state.photos.find(p => p.id === id)`. -/
def findPhoto : List Photo → String → Option Photo
  | [], _ => none
  | p :: rest, id => if p.id = id then some p else findPhoto rest id

/-- `state.photos.filter(p => p.id !== id)`. -/
def removePhoto : List Photo → String → List Photo
  | [], _ => []
  | p :: rest, id => if p.id = id then removePhoto rest id else p :: removePhoto rest id

/-- The admin session state (the reconciliation store): the fields of the
admin.js `state` object that carry gallery data.  `config`, `selected`,
`siteConfig`/`configSha` are presentation/credential state not touched by
the claims and are omitted. -/
structure AdminState where
  photos         : List Photo
  dirty          : Overlay
  pendingDeletes : List Photo
  sha            : Option String
deriving DecidableEq, Repr

/-- `startAdmin` (the load path): baseline replaced from the fetched
manifest, overlay and pending deletions cleared, version tag stored. -/
def startAdmin (photos : List Photo) (sha : String) : AdminState :=
  { photos := photos, dirty := [], pendingDeletes := [], sha := some sha }

/-- `getPhoto(id)`: `state.dirty[id] || state.photos.find(p => p.id === id) || null`. -/
def getPhoto (st : AdminState) (id : String) : Option Photo :=
  match dirtyLookup st.dirty id with
  | some p => some p
  | none => findPhoto st.photos id

/-- `applyDraft(partial)` from admin.js.  The target id is read from
`state.selected` there; every call site has just run `selectPhoto(id)`, so
the id is passed explicitly here.  Note there is no existence check: the
merge base falls back to the empty object. -/
def applyDraft (st : AdminState) (id : String) (pc : Patch) : AdminState :=
  let base :=
    match dirtyLookup st.dirty id with
    | some b => b
    | none =>
      match findPhoto st.photos id with
      | some b => b
      | none => emptyPhoto
  { st with dirty := dirtyInsert st.dirty id (mergePatch base pc) }

/-- `markForDelete(id)`: look up the baseline record; silently return when
absent or when the user declines the confirm dialog (`confirmOk`);
otherwise push the baseline record onto `pendingDeletes`, drop it from the
baseline and drop any overlay entry. -/
def markForDelete (st : AdminState) (id : String) (confirmOk : Bool) : AdminState :=
  match findPhoto st.photos id with
  | none => st
  | some photo =>
    if confirmOk then
      { photos := removePhoto st.photos id
      , dirty := dirtyErase st.dirty id
      , pendingDeletes := st.pendingDeletes ++ [photo]
      , sha := st.sha }
    else st

/-- The `ef-reset` (Revert) click handler: `delete state.dirty[id]`. -/
def revertEdit (st : AdminState) (id : String) : AdminState :=
  { st with dirty := dirtyErase st.dirty id }

/-- The effective view: `state.photos.map(p => state.dirty[p.id] ?? p)`
(the `merged` expression of `publishToGitHub`; `renderGrid` + `getPhoto`
present the same record set). -/
def effectiveList (st : AdminState) : List Photo :=
  st.photos.map (fun p => (dirtyLookup st.dirty p.id).getD p)

/-- `updatePublishBtn`'s change count:
`Object.keys(state.dirty).length + state.pendingDeletes.length`. -/
def pendingChangeCount (st : AdminState) : Nat :=
  st.dirty.length + st.pendingDeletes.length

/-! ## Remote file-store model -/

/-- Outcome of one `fetch`: a completed 2xx response with payload, a
completed error-status response, or a rejected promise (network error). -/
inductive FetchOutcome (α : Type) where
  | ok (val : α)
  | httpErr (msg : String)
  | netErr (msg : String)
deriving DecidableEq, Repr

def FetchOutcome.isOk {α : Type} : FetchOutcome α → Bool
  | .ok _ => true
  | _ => false

/-- `ghGetFile`: throws on an error status (message from the body) and on a
rejected fetch; returns content and sha otherwise. -/
def ghGetFile (o : FetchOutcome (String × String)) : Except String (String × String) :=
  match o with
  | .ok cs => .ok cs
  | .httpErr m => .error ("GitHub: " ++ m)
  | .netErr m => .error m

/-- `ghPutFile(path, content, sha, message)`: the conditional write.  The
content is the serialized photo list (see header).  Throws on error status
or rejected fetch; returns `result.content.sha` otherwise. -/
def ghPutFile (path : String) (content : List Photo) (sha : String) (message : String)
    (o : FetchOutcome String) : Except String String :=
  match path, content, sha, message, o with
  | _, _, _, _, .ok newSha => .ok newSha
  | _, _, _, _, .httpErr m => .error ("GitHub: " ++ m)
  | _, _, _, _, .netErr m => .error m

/-- `ghDeleteFile`: first fetches the file sha — an error status or a
rejected fetch there makes the whole call return silently (file may not
exist).  The DELETE request's response status is not checked, but a
rejected DELETE fetch is not caught inside `ghDeleteFile` and escapes as an
exception. -/
def ghDeleteFile (getResp : FetchOutcome String) (delResp : FetchOutcome Unit) :
    Except String Unit :=
  match getResp with
  | .httpErr _ => .ok ()
  | .netErr _ => .ok ()
  | .ok _sha =>
    match delResp with
    | .netErr m => .error m
    | _ => .ok ()

/-- Character-list prefix test, used for `String.startsWith` (whose
byte-level implementation does not kernel-reduce; on UTF-8 strings the two
agree: a string starts with another iff its character list does). -/
def strHasPrefix : List Char → List Char → Bool
  | [], _ => true
  | _ :: _, [] => false
  | c :: cs, d :: ds => if c = d then strHasPrefix cs ds else false

/-- `isLocal` from `publishToGitHub`: `p && !p.startsWith('http')` (a JS
string is truthy iff nonempty). -/
def isLocal (p : String) : Bool :=
  !p.data.isEmpty && !(strHasPrefix "http".data p.data)

/-- The file paths `publishToGitHub` step 1 deletes for one pending photo,
in issue order: `src` when local, then `thumb` when local. -/
def deletePaths (photo : Photo) : List String :=
  (if isLocal photo.src then [photo.src] else []) ++
  (if isLocal photo.thumb then [photo.thumb] else [])

/-- All delete targets of the step-1 loop over `state.pendingDeletes`. -/
def collectDeletePaths : List Photo → List String
  | [] => []
  | p :: rest => deletePaths p ++ collectDeletePaths rest

/-- One boundary-level remote call, as traced by a publish run.  The two
fetches inside `ghDeleteFile` count as one `deleteFile` boundary call. -/
inductive RemoteCall where
  | getFile (path : String)
  | putFile (path : String) (content : List Photo) (sha : String)
  | deleteFile (path : String)
deriving DecidableEq, Repr

/-- Outcome reported to the user by a publish run. -/
inductive PublishOutcome where
  | noChanges
  | published
  | failed (msg : String)
deriving DecidableEq, Repr

/-- Responses for the two fetches of one `ghDeleteFile` call. -/
abbrev DelResp := FetchOutcome String × FetchOutcome Unit

/-- Remote responses consumed by one publish run: one `DelResp` per issued
delete call (missing entries default to success), plus outcomes of the
manifest re-read and conditional write. -/
structure Oracle where
  delResponses : List DelResp
  manifestGet  : FetchOutcome (String × String)
  manifestPut  : FetchOutcome String
deriving DecidableEq, Repr

/-- The awaited `ghDeleteFile` loop of step 1: issue deletes in order,
consuming one response pair per call; a thrown delete (see `ghDeleteFile`)
aborts the loop with its message.  Returns the trace, the unconsumed
responses and the escaped exception if any. -/
def runDeleteCalls : List String → List DelResp → List RemoteCall × List DelResp × Option String
  | [], rs => ([], rs, none)
  | path :: rest, rs =>
    let step : DelResp × List DelResp :=
      match rs with
      | [] => ((.ok "", .ok ()), [])
      | r :: t => (r, t)
    match ghDeleteFile step.1.1 step.1.2 with
    | .error m => ([.deleteFile path], step.2, some m)
    | .ok _ =>
      let rec' := runDeleteCalls rest step.2
      (.deleteFile path :: rec'.1, rec'.2.1, rec'.2.2)

/-- `publishToGitHub`: the whole publish attempt, returning the state after
the attempt, the boundary-level remote-call trace, and the outcome shown to
the user.  Any exception thrown by a step lands in the surrounding
`try/catch`, which leaves the state untouched and surfaces the message. -/
def publishToGitHub (st : AdminState) (o : Oracle) :
    AdminState × List RemoteCall × PublishOutcome :=
  let hasEdits : Bool := !st.dirty.isEmpty
  let hasDeletes : Bool := !st.pendingDeletes.isEmpty
  if !hasEdits && !hasDeletes then (st, [], .noChanges)
  else
    let del := runDeleteCalls (collectDeletePaths st.pendingDeletes) o.delResponses
    match del.2.2 with
    | some m => (st, del.1, .failed m)
    | none =>
      if hasEdits || hasDeletes then
        let merged := effectiveList st
        match ghGetFile o.manifestGet with
        | .error m => (st, del.1 ++ [.getFile "photos.json"], .failed m)
        | .ok cs =>
          match ghPutFile "photos.json" merged cs.2 "Update photo metadata via admin panel"
              o.manifestPut with
          | .error m =>
            (st, del.1 ++ [.getFile "photos.json", .putFile "photos.json" merged cs.2],
             .failed m)
          | .ok newSha =>
            ({ photos := merged, dirty := [], pendingDeletes := [], sha := some newSha },
             del.1 ++ [.getFile "photos.json", .putFile "photos.json" merged cs.2],
             .published)
      else (st, del.1, .published)

/-! ## Batch photo processor (src/scripts/process-photos.js) -/

/-- `path.basename`: the component after the last slash. -/
def basename (s : String) : String :=
  ⟨(s.data.reverse.takeWhile (fun c => c ≠ '/')).reverse⟩

/-- `.replace(/\.[^.]+$/, '')`: strip a final dot-extension with at least
one character. -/
def removeExt (cs : List Char) : List Char :=
  let rev := cs.reverse
  let after := rev.takeWhile (fun c => c ≠ '.')
  match rev.dropWhile (fun c => c ≠ '.') with
  | '.' :: before => if after.isEmpty then cs else before.reverse
  | _ => cs

/-- Is the character kept by the slug (lowercase letter or digit)? -/
def isSlugChar (c : Char) : Bool :=
  (('a' ≤ c) && (c ≤ 'z')) || (('0' ≤ c) && (c ≤ '9'))

/-- `.replace(/[^a-z0-9]+/g, '-')`, phase 1: each non-slug character
becomes a hyphen. -/
def dashify (cs : List Char) : List Char :=
  cs.map (fun c => if isSlugChar c then c else '-')

/-- `.replace(/[^a-z0-9]+/g, '-')`, phase 2: a run of hyphens collapses to
one (every hyphen at this point stands for a non-slug character). -/
def collapseDashes : List Char → List Char
  | [] => []
  | [c] => [c]
  | c :: c' :: rest =>
    if c = '-' && c' = '-' then collapseDashes (c' :: rest)
    else c :: collapseDashes (c' :: rest)

/-- `.replace(/^-+|-+$/g, '')`: trim hyphens from both ends. -/
def trimDashes (cs : List Char) : List Char :=
  ((cs.dropWhile (fun c => c = '-')).reverse.dropWhile (fun c => c = '-')).reverse

/-- `slugify` from process-photos.js. -/
def slugify (name : String) : String :=
  ⟨trimDashes (collapseDashes (dashify (removeExt (name.data.map Char.toLower))))⟩

/-- `path.extname`: the final dot-extension of the basename, the empty
string when there is none or when the only dot is the leading one. -/
def extname (s : String) : String :=
  let b := (basename s).data
  let after := b.reverse.takeWhile (fun c => c ≠ '.')
  match b.reverse.dropWhile (fun c => c ≠ '.') with
  | '.' :: before => if before.isEmpty then "" else ⟨'.' :: after.reverse⟩
  | _ => ""

/-- `IMAGE_EXTS` from process-photos.js. -/
def IMAGE_EXTS : List String :=
  [".jpg", ".jpeg", ".png", ".tif", ".tiff", ".heic", ".heif", ".webp"]

/-- Boolean string-list membership (the `Set.has` of `knownIds` and the
`IMAGE_EXTS.has` test). -/
def memStr (x : String) : List String → Bool
  | [] => false
  | y :: rest => if y = x then true else memStr x rest

/-- `toLowerCase`, character by character (kernel-reducible version of
`String.toLower`). -/
def strToLower (s : String) : String :=
  ⟨s.data.map Char.toLower⟩

/-- The readdir filter: image extension (case-insensitive) and not a
dotfile. -/
def isImageFile (f : String) : Bool :=
  memStr (strToLower (extname f)) IMAGE_EXTS && !(strHasPrefix ".".data f.data)

/-- `padded`: `String(n).padStart(2, '0')` for a natural number. -/
def padded (n : Nat) : String :=
  if n < 10 then "0" ++ toString n else toString n

/-- `formatDate` applied to the optional EXIF `DateTimeOriginal`, the JS
`Date` being modelled by `(getFullYear, getMonth, getDate)`. -/
def formatDate (d : Option (Nat × Nat × Nat)) : String :=
  match d with
  | none => ""
  | some ymd => toString ymd.1 ++ "-" ++ padded (ymd.2.1 + 1) ++ "-" ++ padded ymd.2.2

/-- Per-file data read from the image and its EXIF block (sharp metadata
and exifr are external I/O, modelled as an input of the run). -/
structure FileInfo where
  width : Nat
  height : Nat
  make : String
  model : String
  dateTimeOriginal : Option (Nat × Nat × Nat)
deriving DecidableEq, Repr

/-- The stub entry built for one newly processed file. -/
def mkEntry (filename : String) (id : String) (info : FileInfo) : Photo :=
  let cameraParts := [info.make, info.model].filter (fun s => !s.isEmpty)
  let camera := String.intercalate " " cameraParts
  { id := id
  , src := "photos/uploads/" ++ filename
  , thumb := "photos/thumbs/" ++ id ++ ".jpg"
  , title := ""
  , description := ""
  , location := ""
  , date := formatDate info.dateTimeOriginal
  , category := "Uncategorized"
  , tags := []
  , camera := if camera.isEmpty then "Hasselblad X2D II" else camera
  , width := info.width
  , height := info.height
  , featured := false }

/-- The per-file loop of process-photos.js: slug ids already in `known`
are skipped, otherwise the stub entry is appended and the id becomes
known.  Returns the final known-id set and the `newEntries` list. -/
def processLoop (info : String → FileInfo) :
    List String → List String → List String × List Photo
  | [], known => (known, [])
  | f :: rest, known =>
    let id := slugify (basename f)
    if memStr id known then processLoop info rest known
    else
      let r := processLoop info rest (id :: known)
      (r.1, mkEntry f id (info f) :: r.2)

/-- The image files of the uploads directory, in readdir order. -/
def imageFiles (allFiles : List String) : List String :=
  allFiles.filter isImageFile

/-- The `newEntries` produced by one run over the given manifest. -/
def newEntries (photos : List Photo) (allFiles : List String) (info : String → FileInfo) :
    List Photo :=
  (processLoop info (imageFiles allFiles) (photos.map (fun p => p.id))).2

/-- One full processor run: `photosData.photos = [...photosData.photos,
...newEntries]` (and no write at all when `newEntries` is empty, which
leaves the same manifest). -/
def processPhotos (photos : List Photo) (allFiles : List String)
    (info : String → FileInfo) : List Photo :=
  photos ++ newEntries photos allFiles info

/-! ## Basic lemmas about the store primitives -/

@[simp] theorem dirtyLookup_nil (k : String) : dirtyLookup [] k = none := rfl

theorem dirtyLookup_erase (d : Overlay) (k k' : String) :
    dirtyLookup (dirtyErase d k) k' = if k' = k then none else dirtyLookup d k' := by
  induction d with
  | nil => simp [dirtyErase]
  | cons e rest ih =>
    rcases eq_or_ne k' k with hk | hk
    · subst hk
      by_cases h1 : e.1 = k' <;> simp_all [dirtyErase, dirtyLookup]
    · by_cases h1 : e.1 = k <;> by_cases h2 : e.1 = k' <;>
        simp_all [dirtyErase, dirtyLookup]

theorem dirtyLookup_insert (d : Overlay) (k : String) (v : Photo) (k' : String) :
    dirtyLookup (dirtyInsert d k v) k' = if k' = k then some v else dirtyLookup d k' := by
  induction d with
  | nil =>
    rcases eq_or_ne k' k with hk | hk
    · subst hk
      simp [dirtyInsert, dirtyLookup]
    · have hk2 : ¬ k = k' := fun hh => hk (Eq.symm hh)
      simp [dirtyInsert, dirtyLookup, hk, hk2]
  | cons e rest ih =>
    rcases eq_or_ne k' k with hk | hk
    · subst hk
      by_cases h1 : e.1 = k' <;> simp_all [dirtyInsert, dirtyLookup]
    · have hk2 : ¬ k = k' := fun hh => hk (Eq.symm hh)
      by_cases h1 : e.1 = k <;> by_cases h2 : e.1 = k' <;>
        simp_all [dirtyInsert, dirtyLookup]

theorem findPhoto_eq_some {l : List Photo} {id : String} {p : Photo}
    (h : findPhoto l id = some p) : p.id = id ∧ p ∈ l := by
  induction l with
  | nil => simp [findPhoto] at h
  | cons q rest ih =>
    by_cases hq : q.id = id
    · simp [findPhoto, hq] at h
      subst h
      exact ⟨hq, List.mem_cons_self q rest⟩
    · simp [findPhoto, hq] at h
      rcases ih h with ⟨h1, h2⟩
      exact ⟨h1, List.mem_cons_of_mem q h2⟩

theorem findPhoto_isSome_mem {l : List Photo} {id : String}
    (h : (findPhoto l id).isSome = true) : id ∈ l.map (fun p => p.id) := by
  rcases Option.isSome_iff_exists.mp h with ⟨p, hp⟩
  rcases findPhoto_eq_some hp with ⟨h1, h2⟩
  exact h1 ▸ List.mem_map_of_mem (fun p => p.id) h2

theorem mem_removePhoto {l : List Photo} {id : String} {q : Photo} :
    q ∈ removePhoto l id ↔ q ∈ l ∧ q.id ≠ id := by
  induction l with
  | nil => simp [removePhoto]
  | cons p rest ih =>
    by_cases hp : p.id = id <;> simp [removePhoto, hp, ih] <;> aesop

theorem removePhoto_sublist (l : List Photo) (id : String) :
    (removePhoto l id).Sublist l := by
  induction l with
  | nil => simp [removePhoto]
  | cons p rest ih =>
    by_cases hp : p.id = id
    · simpa [removePhoto, hp] using ih.cons p
    · simpa [removePhoto, hp] using ih.cons₂ p

@[simp] theorem mergePatch_id (b : Photo) (pc : Patch) : (mergePatch b pc).id = b.id := rfl

theorem effectiveList_dirty_nil (st : AdminState) (h : st.dirty = []) :
    effectiveList st = st.photos := by
  simp [effectiveList, h, dirtyLookup]

/-! ## Lemmas about the publish run -/

theorem publishToGitHub_eq_of_changes (st : AdminState) (o : Oracle)
    (hch : pendingChangeCount st ≠ 0) :
    publishToGitHub st o =
      (fun del =>
        match del.2.2 with
        | some m => (st, del.1, PublishOutcome.failed m)
        | none =>
          match ghGetFile o.manifestGet with
          | .error m => (st, del.1 ++ [RemoteCall.getFile "photos.json"],
              PublishOutcome.failed m)
          | .ok cs =>
            match ghPutFile "photos.json" (effectiveList st) cs.2
                "Update photo metadata via admin panel" o.manifestPut with
            | .error m => (st, del.1 ++ [RemoteCall.getFile "photos.json",
                RemoteCall.putFile "photos.json" (effectiveList st) cs.2],
                PublishOutcome.failed m)
            | .ok newSha =>
              ({ photos := effectiveList st, dirty := [], pendingDeletes := []
               , sha := some newSha },
               del.1 ++ [RemoteCall.getFile "photos.json",
                 RemoteCall.putFile "photos.json" (effectiveList st) cs.2],
               PublishOutcome.published))
      (runDeleteCalls (collectDeletePaths st.pendingDeletes) o.delResponses) := by
  have hor : (!st.dirty.isEmpty || !st.pendingDeletes.isEmpty) = true := by
    cases hd : st.dirty <;> cases hp : st.pendingDeletes <;>
      simp_all [pendingChangeCount]
  have hand : (!(!st.dirty.isEmpty) && !(!st.pendingDeletes.isEmpty)) = false := by
    cases hd : st.dirty.isEmpty <;> cases hp : st.pendingDeletes.isEmpty <;> simp_all
  unfold publishToGitHub
  simp only [hand, hor, Bool.false_eq_true, if_false, if_true]

theorem runDeleteCalls_none_trace (paths : List String) (rs : List DelResp)
    (h : (runDeleteCalls paths rs).2.2 = none) :
    (runDeleteCalls paths rs).1 = paths.map RemoteCall.deleteFile := by
  induction paths generalizing rs with
  | nil => simp [runDeleteCalls]
  | cons path rest ih =>
    cases rs with
    | nil =>
      simp only [runDeleteCalls, ghDeleteFile] at h ⊢
      simp [ih [] h]
    | cons r t =>
      cases hgd : ghDeleteFile r.1 r.2 with
      | error m => simp [runDeleteCalls, hgd] at h
      | ok u =>
        simp only [runDeleteCalls, hgd] at h ⊢
        simp [ih t h]

theorem runDeleteCalls_trace_only_deletes (paths : List String) (rs : List DelResp) :
    ∀ c ∈ (runDeleteCalls paths rs).1, ∃ p, c = RemoteCall.deleteFile p := by
  induction paths generalizing rs with
  | nil => simp [runDeleteCalls]
  | cons path rest ih =>
    intro c hc
    cases rs with
    | nil =>
      simp only [runDeleteCalls, ghDeleteFile, List.mem_cons] at hc
      rcases hc with hc | hc
      · exact ⟨path, hc⟩
      · exact ih [] c hc
    | cons r t =>
      cases hgd : ghDeleteFile r.1 r.2 with
      | error m =>
        simp only [runDeleteCalls, hgd, List.mem_singleton] at hc
        exact ⟨path, hc⟩
      | ok u =>
        simp only [runDeleteCalls, hgd, List.mem_cons] at hc
        rcases hc with hc | hc
        · exact ⟨path, hc⟩
        · exact ih t c hc

theorem collectDeletePaths_map_deleteFile (l : List Photo) :
    (collectDeletePaths l).map RemoteCall.deleteFile =
      (l.map (fun p =>
        (if isLocal p.src then [RemoteCall.deleteFile p.src] else []) ++
        (if isLocal p.thumb then [RemoteCall.deleteFile p.thumb] else []))).flatten := by
  induction l with
  | nil => simp [collectDeletePaths]
  | cons p rest ih =>
    simp only [collectDeletePaths, deletePaths, List.map_cons, List.flatten_cons,
      List.map_append, ← ih]
    by_cases hs : isLocal p.src <;> by_cases ht : isLocal p.thumb <;> simp [hs, ht]

/-! ## Sample data for witnesses and counterexamples -/

/-- A record with a local `src` and an external (URL) `thumb`. -/
def pA : Photo :=
  { id := "a", src := "photos/uploads/a.jpg", thumb := "https://cdn.example.com/a.jpg"
  , title := "Old", description := "", location := "", date := ""
  , category := "Uncategorized", tags := [], camera := "", width := 3, height := 2
  , featured := false }

/-- A record with local `src` and `thumb`. -/
def pB : Photo :=
  { id := "b", src := "photos/uploads/b.jpg", thumb := "photos/thumbs/b.jpg"
  , title := "B", description := "", location := "", date := ""
  , category := "Travel", tags := ["x"], camera := "", width := 3, height := 2
  , featured := true }

def patchNew : Patch := { title := some "New" }

/-- Session with one staged edit on `"a"`. -/
def stA : AdminState := applyDraft (startAdmin [pA, pB] "v1") "a" patchNew

/-- Session with `"a"` staged for deletion. -/
def stDelA : AdminState := markForDelete (startAdmin [pA, pB] "v1") "a" true

def oPutConflict : Oracle :=
  { delResponses := [], manifestGet := .ok ("mc", "v2")
  , manifestPut := .httpErr "photos.json does not match" }

def oAllOk : Oracle :=
  { delResponses := [], manifestGet := .ok ("mc", "v2"), manifestPut := .ok "v3" }

def oDelNetErr : Oracle :=
  { delResponses := [(.ok "s1", .netErr "network down")]
  , manifestGet := .ok ("mc", "v2"), manifestPut := .ok "v3" }

/-! ## Shared helper lemmas about full publish runs -/

/-- A publish attempt with staged changes whose delete phase and re-read
succeed issues the delete calls, the fresh `getFile`, and the conditional
`putFile` carrying the freshly fetched tag, in that order (whether or not
the write itself succeeds). -/
theorem publish_reach_write_trace (st : AdminState) (o : Oracle) (c s : String)
    (hch : pendingChangeCount st ≠ 0)
    (hdel : (runDeleteCalls (collectDeletePaths st.pendingDeletes) o.delResponses).2.2 = none)
    (hget : o.manifestGet = FetchOutcome.ok (c, s)) :
    (publishToGitHub st o).2.1 =
      (collectDeletePaths st.pendingDeletes).map RemoteCall.deleteFile ++
      [RemoteCall.getFile "photos.json",
       RemoteCall.putFile "photos.json" (effectiveList st) s] := by
  have htr := runDeleteCalls_none_trace _ _ hdel
  rw [publishToGitHub_eq_of_changes st o hch]
  cases hput : o.manifestPut <;>
    simp [hdel, hget, hput, ghGetFile, ghPutFile, htr]

/-- A fully successful publish run, as one equation. -/
theorem publish_success_run (st : AdminState) (o : Oracle) (c s ns : String)
    (hch : pendingChangeCount st ≠ 0)
    (hdel : (runDeleteCalls (collectDeletePaths st.pendingDeletes) o.delResponses).2.2 = none)
    (hget : o.manifestGet = FetchOutcome.ok (c, s))
    (hput : o.manifestPut = FetchOutcome.ok ns) :
    publishToGitHub st o =
      ({ photos := effectiveList st, dirty := [], pendingDeletes := []
       , sha := some ns },
       (collectDeletePaths st.pendingDeletes).map RemoteCall.deleteFile ++
       [RemoteCall.getFile "photos.json",
        RemoteCall.putFile "photos.json" (effectiveList st) s],
       PublishOutcome.published) := by
  have htr := runDeleteCalls_none_trace _ _ hdel
  rw [publishToGitHub_eq_of_changes st o hch]
  simp [hdel, hget, hput, ghGetFile, ghPutFile, htr]

/-- The overlay is well-formed with respect to the baseline when every
overlay entry looked up through a baseline id carries that id (true in
every state reachable through the admin operations). -/
theorem wfOverlay_of_check (st : AdminState)
    (h : st.photos.all (fun q =>
        match dirtyLookup st.dirty q.id with
        | some r => r.id == q.id
        | none => true) = true) :
    ∀ q ∈ st.photos, ∀ r, dirtyLookup st.dirty q.id = some r → r.id = q.id := by
  intro q hq r hr
  have h2 := List.all_eq_true.mp h q hq
  rw [hr] at h2
  exact eq_of_beq h2

/-- Ids of the effective view are the baseline ids, for a well-formed
overlay. -/
theorem effList_ids_aux (d : Overlay) (l : List Photo)
    (hwf : ∀ q ∈ l, ∀ r, dirtyLookup d q.id = some r → r.id = q.id) :
    (l.map (fun p => (dirtyLookup d p.id).getD p)).map (fun p => p.id) =
      l.map (fun p => p.id) := by
  induction l with
  | nil => rfl
  | cons q rest ih =>
    have hq := hwf q (List.mem_cons_self q rest)
    have hrest : ∀ q' ∈ rest, ∀ r, dirtyLookup d q'.id = some r → r.id = q'.id :=
      fun q' hq' => hwf q' (List.mem_cons_of_mem _ hq')
    simp only [List.map_cons, ih hrest]
    cases hr : dirtyLookup d q.id with
    | none => simp
    | some r => simp [hq r hr]

theorem effectiveList_ids (st : AdminState)
    (hwf : ∀ q ∈ st.photos, ∀ r, dirtyLookup st.dirty q.id = some r → r.id = q.id) :
    (effectiveList st).map (fun p => p.id) = st.photos.map (fun p => p.id) :=
  effList_ids_aux st.dirty st.photos hwf

/-! ## Claims about the publish protocol -/

/-- C1: when the manifest re-read or the conditional manifest write of a
publish attempt fails (error status, i.e. version mismatch, or transport
error), the whole Reconciliation Store state — baseline, overlay, pending
deletions, hence `effectiveList` — is exactly what it was before the
attempt, and the failure is reported as an outcome rather than thrown. -/
theorem publish_failed_write_preserves_store (st : AdminState) (o : Oracle)
    (hch : pendingChangeCount st ≠ 0)
    (hfail : o.manifestGet.isOk = false ∨ o.manifestPut.isOk = false) :
    (publishToGitHub st o).1 = st ∧
    effectiveList (publishToGitHub st o).1 = effectiveList st ∧
    ∃ m, (publishToGitHub st o).2.2 = PublishOutcome.failed m := by
  rw [publishToGitHub_eq_of_changes st o hch]
  rcases hdel : (runDeleteCalls (collectDeletePaths st.pendingDeletes) o.delResponses).2.2
    with _ | m
  · cases hget : o.manifestGet with
    | ok cs =>
      have hput : o.manifestPut.isOk = false := by
        rcases hfail with h | h
        · rw [hget] at h
          simp [FetchOutcome.isOk] at h
        · exact h
      cases hputc : o.manifestPut with
      | ok ns =>
        rw [hputc] at hput
        simp [FetchOutcome.isOk] at hput
      | httpErr m => simp [hdel, hget, hputc, ghGetFile, ghPutFile]
      | netErr m => simp [hdel, hget, hputc, ghGetFile, ghPutFile]
    | httpErr m => simp [hdel, hget, ghGetFile]
    | netErr m => simp [hdel, hget, ghGetFile]
  · simp [hdel]

/-- C1 witness: a session with one staged edit, published against an oracle
whose conditional write reports a version conflict. -/
theorem publish_failed_write_preserves_store_witness :
    pendingChangeCount stA ≠ 0 ∧ oPutConflict.manifestPut.isOk = false ∧
    ((publishToGitHub stA oPutConflict).1 = stA ∧
     effectiveList (publishToGitHub stA oPutConflict).1 = effectiveList stA ∧
     ∃ m, (publishToGitHub stA oPutConflict).2.2 = PublishOutcome.failed m) :=
  ⟨by decide, by decide,
   publish_failed_write_preserves_store stA oPutConflict (by decide) (Or.inr (by decide))⟩

/-- C2: a publish attempt with staged changes whose delete phase, re-read
and conditional write all succeed commits: the baseline becomes the merged
manifest that was written, overlay and pending deletions are cleared (so
`pendingChangeCount` is zero and `effectiveList` equals the written
manifest), and the stored version tag is the tag returned by the write. -/
theorem publish_success_commits (st : AdminState) (o : Oracle) (c s ns : String)
    (hch : pendingChangeCount st ≠ 0)
    (hdel : (runDeleteCalls (collectDeletePaths st.pendingDeletes) o.delResponses).2.2 = none)
    (hget : o.manifestGet = FetchOutcome.ok (c, s))
    (hput : o.manifestPut = FetchOutcome.ok ns) :
    (publishToGitHub st o).1.photos = effectiveList st ∧
    (publishToGitHub st o).1.dirty = [] ∧
    (publishToGitHub st o).1.pendingDeletes = [] ∧
    (publishToGitHub st o).1.sha = some ns ∧
    pendingChangeCount (publishToGitHub st o).1 = 0 ∧
    effectiveList (publishToGitHub st o).1 = effectiveList st ∧
    (publishToGitHub st o).2.2 = PublishOutcome.published ∧
    (publishToGitHub st o).2.1 =
      (collectDeletePaths st.pendingDeletes).map RemoteCall.deleteFile ++
      [RemoteCall.getFile "photos.json",
       RemoteCall.putFile "photos.json" (effectiveList st) s] := by
  rw [publish_success_run st o c s ns hch hdel hget hput]
  exact ⟨rfl, rfl, rfl, rfl, rfl, effectiveList_dirty_nil _ rfl, rfl, rfl⟩

/-- C2 witness: staged edit on `"a"`, all remote calls succeed. -/
theorem publish_success_commits_witness :
    pendingChangeCount stA ≠ 0 ∧
    (runDeleteCalls (collectDeletePaths stA.pendingDeletes) oAllOk.delResponses).2.2 = none ∧
    oAllOk.manifestGet = FetchOutcome.ok ("mc", "v2") ∧
    oAllOk.manifestPut = FetchOutcome.ok "v3" ∧
    ((publishToGitHub stA oAllOk).1.photos = effectiveList stA ∧
     (publishToGitHub stA oAllOk).1.dirty = [] ∧
     (publishToGitHub stA oAllOk).1.pendingDeletes = [] ∧
     (publishToGitHub stA oAllOk).1.sha = some "v3" ∧
     pendingChangeCount (publishToGitHub stA oAllOk).1 = 0 ∧
     effectiveList (publishToGitHub stA oAllOk).1 = effectiveList stA ∧
     (publishToGitHub stA oAllOk).2.2 = PublishOutcome.published ∧
     (publishToGitHub stA oAllOk).2.1 =
       (collectDeletePaths stA.pendingDeletes).map RemoteCall.deleteFile ++
       [RemoteCall.getFile "photos.json",
        RemoteCall.putFile "photos.json" (effectiveList stA) "v2"]) :=
  ⟨by decide, by decide, by decide, by decide,
   publish_success_commits stA oAllOk "mc" "v2" "v3" (by decide) (by decide) rfl rfl⟩

/-- C5: whenever a publish attempt reaches the manifest write, the version
tag supplied to the write is the tag `s` returned by the single fresh
`getFile` of the attempt, which is performed after the whole delete phase
and immediately before the write — the tag captured at load time
(`st.sha`, arbitrary here) is never consulted. -/
theorem publish_write_uses_fresh_tag (st : AdminState) (o : Oracle) (c s : String)
    (hch : pendingChangeCount st ≠ 0)
    (hdel : (runDeleteCalls (collectDeletePaths st.pendingDeletes) o.delResponses).2.2 = none)
    (hget : o.manifestGet = FetchOutcome.ok (c, s)) :
    (publishToGitHub st o).2.1 =
      (collectDeletePaths st.pendingDeletes).map RemoteCall.deleteFile ++
      [RemoteCall.getFile "photos.json",
       RemoteCall.putFile "photos.json" (effectiveList st) s] :=
  publish_reach_write_trace st o c s hch hdel hget

/-- C5 witness: a session whose load-time tag is `"v1"` writes with the
freshly fetched tag `"v2"`. -/
theorem publish_write_uses_fresh_tag_witness :
    pendingChangeCount stA ≠ 0 ∧
    (runDeleteCalls (collectDeletePaths stA.pendingDeletes) oAllOk.delResponses).2.2 = none ∧
    oAllOk.manifestGet = FetchOutcome.ok ("mc", "v2") ∧ stA.sha = some "v1" ∧
    (publishToGitHub stA oAllOk).2.1 =
      (collectDeletePaths stA.pendingDeletes).map RemoteCall.deleteFile ++
      [RemoteCall.getFile "photos.json",
       RemoteCall.putFile "photos.json" (effectiveList stA) "v2"] :=
  ⟨by decide, by decide, by decide, by decide,
   publish_write_uses_fresh_tag stA oAllOk "mc" "v2" (by decide) (by decide) rfl⟩

/-- C6: in a publish attempt whose delete phase completes and which reaches
the manifest write, each pending deletion contributes a `deleteFile` call
for its `src` exactly when `src` is local and for its `thumb` exactly when
`thumb` is local, in record order, and all of them precede the manifest
write. -/
theorem publish_delete_calls_exact (st : AdminState) (o : Oracle) (c s : String)
    (hch : pendingChangeCount st ≠ 0)
    (hdel : (runDeleteCalls (collectDeletePaths st.pendingDeletes) o.delResponses).2.2 = none)
    (hget : o.manifestGet = FetchOutcome.ok (c, s)) :
    (publishToGitHub st o).2.1 =
      (st.pendingDeletes.map (fun p =>
        (if isLocal p.src then [RemoteCall.deleteFile p.src] else []) ++
        (if isLocal p.thumb then [RemoteCall.deleteFile p.thumb] else []))).flatten ++
      [RemoteCall.getFile "photos.json",
       RemoteCall.putFile "photos.json" (effectiveList st) s] := by
  rw [publish_reach_write_trace st o c s hch hdel hget,
    collectDeletePaths_map_deleteFile]

/-- C6 witness — the spec scenario: `"a"` staged for deletion with a local
`src` and an external URL `thumb`; the publish issues exactly one
`deleteFile` call (for `src` only), before the manifest write. -/
theorem publish_delete_calls_exact_witness :
    pendingChangeCount stDelA ≠ 0 ∧
    (runDeleteCalls (collectDeletePaths stDelA.pendingDeletes) oAllOk.delResponses).2.2
      = none ∧
    oAllOk.manifestGet = FetchOutcome.ok ("mc", "v2") ∧
    isLocal pA.src = true ∧ isLocal pA.thumb = false ∧
    (publishToGitHub stDelA oAllOk).2.1 =
      (stDelA.pendingDeletes.map (fun p =>
        (if isLocal p.src then [RemoteCall.deleteFile p.src] else []) ++
        (if isLocal p.thumb then [RemoteCall.deleteFile p.thumb] else []))).flatten ++
      [RemoteCall.getFile "photos.json",
       RemoteCall.putFile "photos.json" (effectiveList stDelA) "v2"] :=
  ⟨by decide, by decide, by decide, by decide, by decide,
   publish_delete_calls_exact stDelA oAllOk "mc" "v2" (by decide) (by decide) rfl⟩

/-- C7 counterexample: the claim says no delete failure ever aborts the
publish attempt, but a transport error on the DELETE request itself (a
rejected fetch, modelled by `netErr`) escapes `ghDeleteFile` and aborts the
attempt: the run below stops after the single delete call — no manifest
write happens — and reports failure. -/
theorem publish_delete_transport_aborts_cex :
    publishToGitHub stDelA oDelNetErr =
      (stDelA, [RemoteCall.deleteFile "photos/uploads/a.jpg"],
       PublishOutcome.failed "network down") := by
  decide

/-- C7 (amended): during the delete phase, a failed metadata fetch (error
status — file not found — or rejected fetch) makes the delete a silent
success, and an error status on the DELETE request itself is ignored; but
a rejected DELETE fetch escapes and aborts the publish attempt — with the
store left unchanged, the failure surfaced, and no call after the failing
delete (in particular no manifest write). -/
theorem deletePhase_best_effort_except_transport :
    (∀ (m : String) (d : FetchOutcome Unit),
      ghDeleteFile (FetchOutcome.httpErr m) d = Except.ok ()) ∧
    (∀ (m : String) (d : FetchOutcome Unit),
      ghDeleteFile (FetchOutcome.netErr m) d = Except.ok ()) ∧
    (∀ (s m : String),
      ghDeleteFile (FetchOutcome.ok s) (FetchOutcome.httpErr m) = Except.ok ()) ∧
    (∀ (s : String),
      ghDeleteFile (FetchOutcome.ok s) (FetchOutcome.ok ()) = Except.ok ()) ∧
    (∀ (s m : String),
      ghDeleteFile (FetchOutcome.ok s) (FetchOutcome.netErr m) = Except.error m) ∧
    (∀ (st : AdminState) (o : Oracle) (m : String),
      (runDeleteCalls (collectDeletePaths st.pendingDeletes) o.delResponses).2.2 = some m →
      (publishToGitHub st o).1 = st ∧
      (publishToGitHub st o).2.2 = PublishOutcome.failed m ∧
      ∀ c ∈ (publishToGitHub st o).2.1, ∃ p, c = RemoteCall.deleteFile p) := by
  refine ⟨fun m d => rfl, fun m d => rfl, fun s m => rfl, fun s => rfl, fun s m => rfl,
    fun st o m hdel => ?_⟩
  have hne : st.pendingDeletes ≠ [] := by
    intro h0
    rw [h0] at hdel
    simp [collectDeletePaths, runDeleteCalls] at hdel
  have hch : pendingChangeCount st ≠ 0 := by
    cases hp : st.pendingDeletes with
    | nil => exact absurd hp hne
    | cons q qs => simp [pendingChangeCount, hp]
  refine ⟨?_, ?_, ?_⟩
  · rw [publishToGitHub_eq_of_changes st o hch]
    simp [hdel]
  · rw [publishToGitHub_eq_of_changes st o hch]
    simp [hdel]
  · intro c hc
    refine runDeleteCalls_trace_only_deletes (collectDeletePaths st.pendingDeletes)
      o.delResponses c ?_
    rw [publishToGitHub_eq_of_changes st o hch] at hc
    simpa [hdel] using hc

/-- C7 witness for the amended claim: the delete phase of the
counterexample run throws `"network down"`, and the amended theorem applies
to it. -/
theorem deletePhase_best_effort_except_transport_witness :
    (runDeleteCalls (collectDeletePaths stDelA.pendingDeletes) oDelNetErr.delResponses).2.2
      = some "network down" ∧
    ((publishToGitHub stDelA oDelNetErr).1 = stDelA ∧
     (publishToGitHub stDelA oDelNetErr).2.2 = PublishOutcome.failed "network down" ∧
     ∀ c ∈ (publishToGitHub stDelA oDelNetErr).2.1, ∃ p, c = RemoteCall.deleteFile p) :=
  ⟨by decide,
   deletePhase_best_effort_except_transport.2.2.2.2.2 stDelA oDelNetErr "network down"
     (by decide)⟩

/-! ## Claims about staging operations -/

theorem findPhoto_removePhoto_self (l : List Photo) (id : String) :
    findPhoto (removePhoto l id) id = none := by
  induction l with
  | nil => rfl
  | cons p rest ih =>
    by_cases hp : p.id = id <;> simp [removePhoto, findPhoto, hp, ih]

/-- A second `markForDelete` on the same id is a silent no-op: the record
is no longer in the baseline, so the early return fires. -/
theorem markForDelete_twice (st : AdminState) (id : String) (c : Bool) :
    markForDelete (markForDelete st id true) id c = markForDelete st id true := by
  cases hf : findPhoto st.photos id with
  | none => simp [markForDelete, hf]
  | some p => simp [markForDelete, hf, findPhoto_removePhoto_self]

/-- C3 counterexample: `"ghost"` resolves to no effective record in a
freshly loaded session, yet `applyDraft` (stageEdit) raises nothing and
stores the patch merged into the empty record in the DirtyOverlay —
contradicting "fails with NotFoundError and stores nothing". -/
theorem stageEdit_missing_id_stores_cex :
    getPhoto (startAdmin [pA, pB] "v1") "ghost" = none ∧
    (applyDraft (startAdmin [pA, pB] "v1") "ghost" patchNew).dirty =
      [("ghost", mergePatch emptyPhoto patchNew)] := by
  decide

/-- C3 (amended): on an id with no effective record, `stageEdit` does not
fail — it stores the partial change merged into the empty record under
that id; `stageDelete` on an id absent from the baseline silently returns,
leaving the store unchanged and raising nothing, so in particular a second
`stageDelete` of the same id is a silent no-op. -/
theorem stage_ops_missing_id (st : AdminState) (id : String) (pc : Patch) (c : Bool)
    (hmiss : getPhoto st id = none) :
    (applyDraft st id pc).dirty = dirtyInsert st.dirty id (mergePatch emptyPhoto pc) ∧
    dirtyLookup (applyDraft st id pc).dirty id = some (mergePatch emptyPhoto pc) ∧
    markForDelete st id c = st ∧
    (∀ (st2 : AdminState) (id2 : String) (c2 : Bool),
      markForDelete (markForDelete st2 id2 true) id2 c2 = markForDelete st2 id2 true) := by
  have h1 : dirtyLookup st.dirty id = none := by
    unfold getPhoto at hmiss
    cases hd : dirtyLookup st.dirty id with
    | none => rfl
    | some b => rw [hd] at hmiss; exact absurd hmiss (by simp)
  have h2 : findPhoto st.photos id = none := by
    unfold getPhoto at hmiss
    rw [h1] at hmiss
    exact hmiss
  refine ⟨?_, ?_, ?_, fun st2 id2 c2 => markForDelete_twice st2 id2 c2⟩
  · simp [applyDraft, h1, h2]
  · simp [applyDraft, h1, h2, dirtyLookup_insert]
  · simp [markForDelete, h2]

/-- C3 witness for the amended claim, at the counterexample input. -/
theorem stage_ops_missing_id_witness :
    getPhoto (startAdmin [pA, pB] "v1") "ghost" = none ∧
    ((applyDraft (startAdmin [pA, pB] "v1") "ghost" patchNew).dirty =
       dirtyInsert (startAdmin [pA, pB] "v1").dirty "ghost"
         (mergePatch emptyPhoto patchNew) ∧
     dirtyLookup (applyDraft (startAdmin [pA, pB] "v1") "ghost" patchNew).dirty "ghost" =
       some (mergePatch emptyPhoto patchNew) ∧
     markForDelete (startAdmin [pA, pB] "v1") "ghost" true = startAdmin [pA, pB] "v1" ∧
     (∀ (st2 : AdminState) (id2 : String) (c2 : Bool),
       markForDelete (markForDelete st2 id2 true) id2 c2 = markForDelete st2 id2 true)) :=
  ⟨by decide, stage_ops_missing_id (startAdmin [pA, pB] "v1") "ghost" patchNew true
    (by decide)⟩

/-- C4 counterexample: with a staged edit on `"a"` (title `"New"`),
`markForDelete "a"` snapshots the baseline record `pA` (title `"Old"`)
into PendingDeletions, not the differing DirtyOverlay entry —
contradicting "the DirtyOverlay entry for id when one exists, not the
baseline record". -/
theorem markForDelete_snapshot_cex :
    dirtyLookup stA.dirty "a" = some (mergePatch pA patchNew) ∧
    mergePatch pA patchNew ≠ pA ∧
    (markForDelete stA "a" true).pendingDeletes = [pA] := by
  decide

/-- C4 (amended): for an id present in the baseline, `stageDelete` appends
the baseline record — not the overlay entry — to PendingDeletions, removes
the id's DirtyOverlay entry, and removes the id from the effective view
(for a well-formed overlay). -/
theorem markForDelete_spec (st : AdminState) (id : String) (p : Photo)
    (hf : findPhoto st.photos id = some p)
    (hwf : ∀ q ∈ st.photos, ∀ r, dirtyLookup st.dirty q.id = some r → r.id = q.id) :
    markForDelete st id true =
      { photos := removePhoto st.photos id
      , dirty := dirtyErase st.dirty id
      , pendingDeletes := st.pendingDeletes ++ [p]
      , sha := st.sha } ∧
    dirtyLookup (markForDelete st id true).dirty id = none ∧
    id ∉ (effectiveList (markForDelete st id true)).map (fun q => q.id) := by
  have hstate : markForDelete st id true =
      { photos := removePhoto st.photos id
      , dirty := dirtyErase st.dirty id
      , pendingDeletes := st.pendingDeletes ++ [p]
      , sha := st.sha } := by
    simp [markForDelete, hf]
  refine ⟨hstate, ?_, ?_⟩
  · rw [hstate]
    simp [dirtyLookup_erase]
  · rw [hstate]
    intro hmem
    simp only [effectiveList, List.map_map, List.mem_map, Function.comp] at hmem
    obtain ⟨q', hq', hid⟩ := hmem
    have hq2 := mem_removePhoto.mp hq'
    rw [dirtyLookup_erase, if_neg hq2.2] at hid
    cases hr : dirtyLookup st.dirty q'.id with
    | none =>
      rw [hr] at hid
      exact hq2.2 hid
    | some r =>
      rw [hr] at hid
      exact hq2.2 ((hwf q' hq2.1 r hr) ▸ hid)

/-- C4 witness for the amended claim: deleting `"a"` while it carries a
staged edit. -/
theorem markForDelete_spec_witness :
    findPhoto stA.photos "a" = some pA ∧
    (markForDelete stA "a" true =
       { photos := removePhoto stA.photos "a"
       , dirty := dirtyErase stA.dirty "a"
       , pendingDeletes := stA.pendingDeletes ++ [pA]
       , sha := stA.sha } ∧
     dirtyLookup (markForDelete stA "a" true).dirty "a" = none ∧
     "a" ∉ (effectiveList (markForDelete stA "a" true)).map (fun q => q.id)) :=
  ⟨by decide, markForDelete_spec stA "a" pA (by decide) (wfOverlay_of_check stA (by decide))⟩

/-- C10: the manifest written by a successful publish carries exactly the
post-deletion baseline ids — overlay entries keyed outside the baseline
are omitted from the write and then discarded with the overlay — so
publish never introduces an id that is not already in the baseline. -/
theorem publish_never_introduces_ids (st : AdminState) (o : Oracle) (c s ns : String)
    (hch : pendingChangeCount st ≠ 0)
    (hdel : (runDeleteCalls (collectDeletePaths st.pendingDeletes) o.delResponses).2.2 = none)
    (hget : o.manifestGet = FetchOutcome.ok (c, s))
    (hput : o.manifestPut = FetchOutcome.ok ns)
    (hwf : ∀ q ∈ st.photos, ∀ r, dirtyLookup st.dirty q.id = some r → r.id = q.id) :
    (effectiveList st).map (fun p => p.id) = st.photos.map (fun p => p.id) ∧
    (publishToGitHub st o).1.photos.map (fun p => p.id) = st.photos.map (fun p => p.id) ∧
    (publishToGitHub st o).1.dirty = [] ∧
    (∀ k, dirtyLookup st.dirty k ≠ none → k ∉ st.photos.map (fun p => p.id) →
      k ∉ (publishToGitHub st o).1.photos.map (fun p => p.id)) := by
  have h1 : (effectiveList st).map (fun p => p.id) = st.photos.map (fun p => p.id) :=
    effectiveList_ids st hwf
  rw [publish_success_run st o c s ns hch hdel hget hput]
  refine ⟨h1, h1, rfl, fun k hk hnot => ?_⟩
  intro hmem
  rw [h1] at hmem
  exact hnot hmem

/-- A session with a staged edit on `"a"` and a stray overlay entry under
the key `"ghost"`, which no baseline record carries. -/
def stGhost : AdminState := applyDraft stA "ghost" { title := some "G" }

/-- C10 witness: publishing `stGhost` writes exactly the baseline ids and
drops the `"ghost"` overlay entry. -/
theorem publish_never_introduces_ids_witness :
    pendingChangeCount stGhost ≠ 0 ∧
    dirtyLookup stGhost.dirty "ghost" ≠ none ∧
    ((effectiveList stGhost).map (fun p => p.id) = stGhost.photos.map (fun p => p.id) ∧
     (publishToGitHub stGhost oAllOk).1.photos.map (fun p => p.id) =
       stGhost.photos.map (fun p => p.id) ∧
     (publishToGitHub stGhost oAllOk).1.dirty = [] ∧
     (∀ k, dirtyLookup stGhost.dirty k ≠ none → k ∉ stGhost.photos.map (fun p => p.id) →
       k ∉ (publishToGitHub stGhost oAllOk).1.photos.map (fun p => p.id))) :=
  ⟨by decide, by decide,
   publish_never_introduces_ids stGhost oAllOk "mc" "v2" "v3" (by decide) (by decide)
     rfl rfl (wfOverlay_of_check stGhost (by decide))⟩

/-! ## Operation sequences over the reconciliation store (for the
effective-view invariant) -/

/-- One user staging operation: a staged edit (`applyDraft` after
`selectPhoto`), a staged deletion (`markForDelete` with the dialog
confirmed), or a revert (the `ef-reset` handler). -/
inductive AOp where
  | edit (id : String) (pc : Patch)
  | del (id : String)
  | revert (id : String)
deriving DecidableEq, Repr

def stepOp (st : AdminState) : AOp → AdminState
  | .edit id pc => applyDraft st id pc
  | .del id => markForDelete st id true
  | .revert id => revertEdit st id

/-- The spec-side precondition of each operation: `stageEdit` requires the
id to resolve to an effective record, `stageDelete` requires the id to
exist, `revert` is unconditional. -/
def opPre (st : AdminState) : AOp → Bool
  | .edit id _ => (getPhoto st id).isSome
  | .del id => (findPhoto st.photos id).isSome
  | .revert _ => true

def runOps : AdminState → List AOp → AdminState
  | st, [] => st
  | st, op :: rest => runOps (stepOp st op) rest

/-- Every operation of the sequence satisfies its precondition in the
state where it runs. -/
def validSeq : AdminState → List AOp → Bool
  | _, [] => true
  | st, op :: rest => opPre st op && validSeq (stepOp st op) rest

/-- The staged-delete ids of a sequence. -/
def delIds : List AOp → List String
  | [] => []
  | AOp.del id :: rest => id :: delIds rest
  | _ :: rest => delIds rest

/-- The staged-edit ids of a sequence. -/
def editIds : List AOp → List String
  | [] => []
  | AOp.edit id _ :: rest => id :: editIds rest
  | _ :: rest => editIds rest

/-- The baseline restricted to ids outside the given deletion set
(keeping baseline order). -/
def keepPhotos : List Photo → List String → List Photo
  | [], _ => []
  | p :: rest, dels =>
    if memStr p.id dels then keepPhotos rest dels else p :: keepPhotos rest dels

/-- Same restriction on an id list. -/
def keepIds : List String → List String → List String
  | [], _ => []
  | x :: rest, dels =>
    if memStr x dels then keepIds rest dels else x :: keepIds rest dels

theorem memStr_iff (x : String) (l : List String) : memStr x l = true ↔ x ∈ l := by
  induction l with
  | nil => simp [memStr]
  | cons y rest ih =>
    by_cases hy : y = x <;> simp [memStr, hy, ih]
    exact fun h => (hy h.symm).elim

theorem keepPhotos_nil_dels (l : List Photo) : keepPhotos l [] = l := by
  induction l with
  | nil => rfl
  | cons p rest ih => simp [keepPhotos, memStr, ih]

theorem keepPhotos_removePhoto (l : List Photo) (id : String) (dels : List String) :
    keepPhotos (removePhoto l id) dels = keepPhotos l (id :: dels) := by
  induction l with
  | nil => rfl
  | cons p rest ih =>
    by_cases hp : p.id = id
    · have hm : memStr id (id :: dels) = true := by simp [memStr]
      simp [removePhoto, keepPhotos, hp, hm, ih]
    · have hne : ¬ id = p.id := fun h => hp h.symm
      have hm : memStr p.id (id :: dels) = memStr p.id dels := by
        simp [memStr, hne]
      by_cases hmm : memStr p.id dels = true <;>
        simp [removePhoto, keepPhotos, hp, hm, hmm, ih]

theorem ids_keepPhotos (l : List Photo) (dels : List String) :
    (keepPhotos l dels).map (fun p => p.id) = keepIds (l.map (fun p => p.id)) dels := by
  induction l with
  | nil => rfl
  | cons p rest ih =>
    by_cases hm : memStr p.id dels = true <;> simp [keepPhotos, keepIds, hm, ih]

theorem keepIds_sublist (l dels : List String) : (keepIds l dels).Sublist l := by
  induction l with
  | nil => simp [keepIds]
  | cons x rest ih =>
    by_cases hm : memStr x dels = true
    · simpa [keepIds, hm] using ih.cons x
    · simpa [keepIds, hm] using ih.cons₂ x

theorem mem_keepIds (x : String) (l dels : List String) :
    x ∈ keepIds l dels ↔ x ∈ l ∧ x ∉ dels := by
  induction l with
  | nil => simp [keepIds]
  | cons y rest ih =>
    cases hb : memStr y dels with
    | true =>
      have hy : y ∈ dels := (memStr_iff y dels).mp hb
      have hk : keepIds (y :: rest) dels = keepIds rest dels := by
        simp [keepIds, hb]
      rw [hk, ih]
      simp only [List.mem_cons]
      constructor
      · rintro ⟨h1, h2⟩
        exact ⟨Or.inr h1, h2⟩
      · rintro ⟨h1 | h1, h2⟩
        · exact absurd (h1 ▸ hy) h2
        · exact ⟨h1, h2⟩
    | false =>
      have hy : y ∉ dels := fun hin => by
        rw [(memStr_iff y dels).mpr hin] at hb
        cases hb
      have hk : keepIds (y :: rest) dels = y :: keepIds rest dels := by
        simp [keepIds, hb]
      rw [hk]
      simp only [List.mem_cons, ih]
      constructor
      · rintro (h3 | ⟨h4, h5⟩)
        · exact ⟨Or.inl h3, h3 ▸ hy⟩
        · exact ⟨Or.inr h4, h5⟩
      · rintro ⟨h1 | h1, h2⟩
        · exact Or.inl h1
        · exact Or.inr ⟨h1, h2⟩

/-- The session-state invariant: baseline ids are distinct, every overlay
key is a baseline id, and overlay entries carry the id of their baseline
record. -/
abbrev WfState (st : AdminState) : Prop :=
  (st.photos.map (fun p => p.id)).Nodup ∧
  (∀ k, dirtyLookup st.dirty k ≠ none → k ∈ st.photos.map (fun p => p.id)) ∧
  (∀ q ∈ st.photos, ∀ r, dirtyLookup st.dirty q.id = some r → r.id = q.id)

theorem mem_ids_removePhoto {l : List Photo} {k id : String}
    (h : k ∈ l.map (fun p => p.id)) (hne : k ≠ id) :
    k ∈ (removePhoto l id).map (fun p => p.id) := by
  obtain ⟨q, hq, hqid⟩ := List.mem_map.mp h
  refine List.mem_map.mpr ⟨q, ?_, hqid⟩
  exact mem_removePhoto.mpr ⟨hq, fun h2 => hne (hqid ▸ h2 ▸ rfl)⟩

theorem applyDraft_wf (st : AdminState) (id : String) (pc : Patch)
    (hwf : WfState st) (hpre : (getPhoto st id).isSome = true) :
    (applyDraft st id pc).photos = st.photos ∧
    WfState (applyDraft st id pc) ∧ id ∈ st.photos.map (fun p => p.id) := by
  obtain ⟨v, hdirty, hvid, hidmem⟩ :
      ∃ v, (applyDraft st id pc).dirty = dirtyInsert st.dirty id v ∧ v.id = id ∧
        id ∈ st.photos.map (fun p => p.id) := by
    cases hd : dirtyLookup st.dirty id with
    | some b =>
      have hidmem : id ∈ st.photos.map (fun p => p.id) :=
        hwf.2.1 id (by rw [hd]; simp)
      have hbid : b.id = id := by
        obtain ⟨q, hq, hqid⟩ := List.mem_map.mp hidmem
        have h3 := hwf.2.2 q hq b (by rw [hqid, hd])
        rw [h3, hqid]
      exact ⟨mergePatch b pc, by simp [applyDraft, hd], by simp [hbid], hidmem⟩
    | none =>
      have hf : (findPhoto st.photos id).isSome = true := by
        unfold getPhoto at hpre
        rw [hd] at hpre
        exact hpre
      obtain ⟨b, hb⟩ := Option.isSome_iff_exists.mp hf
      obtain ⟨hbid, hbmem⟩ := findPhoto_eq_some hb
      refine ⟨mergePatch b pc, by simp [applyDraft, hd, hb], by simp [hbid], ?_⟩
      exact hbid ▸ List.mem_map_of_mem (fun p => p.id) hbmem
  have hphotos : (applyDraft st id pc).photos = st.photos := rfl
  refine ⟨hphotos, ⟨?_, ?_, ?_⟩, hidmem⟩
  · rw [hphotos]
    exact hwf.1
  · intro k hk
    rw [hdirty, dirtyLookup_insert] at hk
    rw [hphotos]
    by_cases hk2 : k = id
    · exact hk2 ▸ hidmem
    · rw [if_neg hk2] at hk
      exact hwf.2.1 k hk
  · intro q hq r hr
    rw [hphotos] at hq
    rw [hdirty, dirtyLookup_insert] at hr
    by_cases hq2 : q.id = id
    · rw [if_pos hq2] at hr
      have hvr : v = r := Option.some.inj hr
      rw [← hvr, hvid, hq2]
    · rw [if_neg hq2] at hr
      exact hwf.2.2 q hq r hr

theorem markForDelete_wf (st : AdminState) (id : String) (p : Photo)
    (hf : findPhoto st.photos id = some p) (hwf : WfState st) :
    (markForDelete st id true).photos = removePhoto st.photos id ∧
    WfState (markForDelete st id true) := by
  have hstate : markForDelete st id true =
      { photos := removePhoto st.photos id
      , dirty := dirtyErase st.dirty id
      , pendingDeletes := st.pendingDeletes ++ [p]
      , sha := st.sha } := by
    simp [markForDelete, hf]
  rw [hstate]
  refine ⟨rfl, ?_, ?_, ?_⟩
  · exact List.Nodup.sublist ((removePhoto_sublist st.photos id).map (fun p => p.id)) hwf.1
  · intro k hk
    rw [dirtyLookup_erase] at hk
    by_cases hk2 : k = id
    · rw [if_pos hk2] at hk
      exact absurd rfl hk
    · rw [if_neg hk2] at hk
      exact mem_ids_removePhoto (hwf.2.1 k hk) hk2
  · intro q hq r hr
    have hq2 := mem_removePhoto.mp hq
    rw [dirtyLookup_erase, if_neg hq2.2] at hr
    exact hwf.2.2 q hq2.1 r hr

theorem revertEdit_wf (st : AdminState) (id : String) (hwf : WfState st) :
    (revertEdit st id).photos = st.photos ∧ WfState (revertEdit st id) := by
  refine ⟨rfl, hwf.1, ?_, ?_⟩
  · intro k hk
    rw [revertEdit] at hk
    simp only [dirtyLookup_erase] at hk
    by_cases hk2 : k = id
    · rw [if_pos hk2] at hk
      exact absurd rfl hk
    · rw [if_neg hk2] at hk
      exact hwf.2.1 k hk
  · intro q hq r hr
    rw [revertEdit] at hr
    simp only [dirtyLookup_erase] at hr
    by_cases hq2 : q.id = id
    · rw [if_pos hq2] at hr
      cases hr
    · rw [if_neg hq2] at hr
      exact hwf.2.2 q hq r hr

/-- Master induction: a valid operation sequence keeps the invariant, its
final baseline is the initial baseline filtered by the staged-delete ids,
and every staged-edit id was a baseline id. -/
theorem runOps_master (ops : List AOp) : ∀ (st : AdminState),
    WfState st → validSeq st ops = true →
    (runOps st ops).photos = keepPhotos st.photos (delIds ops) ∧
    WfState (runOps st ops) ∧
    (∀ i ∈ editIds ops, i ∈ st.photos.map (fun p => p.id)) := by
  induction ops with
  | nil =>
    intro st hwf _
    exact ⟨(keepPhotos_nil_dels st.photos).symm, hwf, by simp [editIds]⟩
  | cons op rest ih =>
    intro st hwf hv
    simp only [validSeq, Bool.and_eq_true] at hv
    obtain ⟨hpre, hvrest⟩ := hv
    cases op with
    | edit id pc =>
      obtain ⟨hphotos, hwf', hidmem⟩ := applyDraft_wf st id pc hwf hpre
      obtain ⟨ihp, ihwf, ihe⟩ := ih (applyDraft st id pc) hwf' hvrest
      refine ⟨?_, ihwf, ?_⟩
      · simp only [runOps, stepOp, delIds, ihp, hphotos]
      · intro i hi
        simp only [editIds, List.mem_cons] at hi
        rcases hi with hi | hi
        · exact hi ▸ hidmem
        · exact hphotos ▸ ihe i hi
    | del id =>
      obtain ⟨p, hp⟩ := Option.isSome_iff_exists.mp hpre
      obtain ⟨hphotos, hwf'⟩ := markForDelete_wf st id p hp hwf
      obtain ⟨ihp, ihwf, ihe⟩ := ih (markForDelete st id true) hwf' hvrest
      refine ⟨?_, ihwf, ?_⟩
      · simp only [runOps, stepOp, delIds, ihp, hphotos, keepPhotos_removePhoto]
      · intro i hi
        simp only [editIds] at hi
        have h1 := ihe i hi
        rw [hphotos] at h1
        exact ((removePhoto_sublist st.photos id).map (fun p => p.id)).subset h1
    | revert id =>
      obtain ⟨hphotos, hwf'⟩ := revertEdit_wf st id hwf
      obtain ⟨ihp, ihwf, ihe⟩ := ih (revertEdit st id) hwf' hvrest
      refine ⟨?_, ihwf, ?_⟩
      · simp only [runOps, stepOp, delIds, ihp, hphotos]
      · intro i hi
        simp only [editIds] at hi
        exact hphotos ▸ ihe i hi

/-- C8: after any valid sequence of staged edits, staged deletions and
reverts from a freshly loaded manifest with distinct ids, the ids of
`effectiveList` are exactly (baseline ids ∪ staged-edit ids) minus
staged-delete ids, each id occurs at most once, and the surviving ids keep
the baseline order (they are the baseline id list filtered by the
staged-delete set). -/
theorem effectiveList_ids_invariant (photos0 : List Photo) (sha0 : String)
    (ops : List AOp)
    (hnd : (photos0.map (fun p => p.id)).Nodup)
    (hv : validSeq (startAdmin photos0 sha0) ops = true) :
    ((effectiveList (runOps (startAdmin photos0 sha0) ops)).map (fun p => p.id)).Nodup ∧
    (effectiveList (runOps (startAdmin photos0 sha0) ops)).map (fun p => p.id) =
      keepIds (photos0.map (fun p => p.id)) (delIds ops) ∧
    (∀ i, i ∈ (effectiveList (runOps (startAdmin photos0 sha0) ops)).map (fun p => p.id) ↔
      ((i ∈ photos0.map (fun p => p.id) ∨ i ∈ editIds ops) ∧ i ∉ delIds ops)) := by
  have hwf0 : WfState (startAdmin photos0 sha0) := by
    refine ⟨hnd, ?_, ?_⟩
    · intro k hk
      simp [startAdmin] at hk
    · intro q hq r hr
      simp [startAdmin] at hr
  obtain ⟨hph, hwfF, hedit⟩ := runOps_master ops (startAdmin photos0 sha0) hwf0 hv
  have hids := effectiveList_ids (runOps (startAdmin photos0 sha0) ops) hwfF.2.2
  have hph0 : (startAdmin photos0 sha0).photos = photos0 := rfl
  rw [hph0] at hph hedit
  have hkeep : (effectiveList (runOps (startAdmin photos0 sha0) ops)).map (fun p => p.id) =
      keepIds (photos0.map (fun p => p.id)) (delIds ops) := by
    rw [hids, hph, ids_keepPhotos]
  refine ⟨?_, hkeep, ?_⟩
  · rw [hkeep]
    exact List.Nodup.sublist (keepIds_sublist _ _) hnd
  · intro i
    rw [hkeep, mem_keepIds]
    constructor
    · rintro ⟨h1, h2⟩
      exact ⟨Or.inl h1, h2⟩
    · rintro ⟨h1 | h1, h2⟩
      · exact ⟨h1, h2⟩
      · exact ⟨hedit i h1, h2⟩

/-- C8 witness: baseline `[pA, pB]`, a valid sequence editing `"a"`,
deleting `"b"`, then reverting `"a"`. -/
theorem effectiveList_ids_invariant_witness :
    (([pA, pB].map (fun p => p.id)).Nodup ∧
     validSeq (startAdmin [pA, pB] "v1")
       [AOp.edit "a" patchNew, AOp.del "b", AOp.revert "a"] = true) ∧
    (((effectiveList (runOps (startAdmin [pA, pB] "v1")
        [AOp.edit "a" patchNew, AOp.del "b", AOp.revert "a"])).map
        (fun p => p.id)).Nodup ∧
     (effectiveList (runOps (startAdmin [pA, pB] "v1")
        [AOp.edit "a" patchNew, AOp.del "b", AOp.revert "a"])).map (fun p => p.id) =
       keepIds ([pA, pB].map (fun p => p.id))
         (delIds [AOp.edit "a" patchNew, AOp.del "b", AOp.revert "a"]) ∧
     (∀ i, i ∈ (effectiveList (runOps (startAdmin [pA, pB] "v1")
          [AOp.edit "a" patchNew, AOp.del "b", AOp.revert "a"])).map (fun p => p.id) ↔
       ((i ∈ [pA, pB].map (fun p => p.id) ∨
         i ∈ editIds [AOp.edit "a" patchNew, AOp.del "b", AOp.revert "a"]) ∧
        i ∉ delIds [AOp.edit "a" patchNew, AOp.del "b", AOp.revert "a"]))) :=
  ⟨⟨by decide, by decide⟩,
   effectiveList_ids_invariant [pA, pB] "v1"
     [AOp.edit "a" patchNew, AOp.del "b", AOp.revert "a"] (by decide) (by decide)⟩

/-! ## Claims about the batch photo processor -/

@[simp] theorem mkEntry_id (f id : String) (i : FileInfo) : (mkEntry f id i).id = id := rfl

theorem processLoop_known_subset (info : String → FileInfo) (fs : List String) :
    ∀ (known : List String) (x : String), x ∈ known → x ∈ (processLoop info fs known).1 := by
  induction fs with
  | nil =>
    intro known x hx
    simpa [processLoop] using hx
  | cons f rest ih =>
    intro known x hx
    cases hb : memStr (slugify (basename f)) known with
    | true =>
      simp only [processLoop, hb, if_true]
      exact ih known x hx
    | false =>
      simp only [processLoop, hb, Bool.false_eq_true, if_false]
      exact ih (slugify (basename f) :: known) x (List.mem_cons_of_mem _ hx)

theorem processLoop_file_covered (info : String → FileInfo) (fs : List String) :
    ∀ (known : List String) (f : String), f ∈ fs →
      slugify (basename f) ∈ (processLoop info fs known).1 := by
  induction fs with
  | nil =>
    intro known f hf
    cases hf
  | cons f' rest ih =>
    intro known f hf
    cases hb : memStr (slugify (basename f')) known with
    | true =>
      simp only [processLoop, hb, if_true]
      rcases List.mem_cons.mp hf with hf1 | hf1
      · subst hf1
        exact processLoop_known_subset info rest known _ ((memStr_iff _ _).mp hb)
      · exact ih known f hf1
    | false =>
      simp only [processLoop, hb, Bool.false_eq_true, if_false]
      rcases List.mem_cons.mp hf with hf1 | hf1
      · subst hf1
        exact processLoop_known_subset info rest _ _ (List.mem_cons_self _ _)
      · exact ih (slugify (basename f') :: known) f hf1

theorem processLoop_new_not_known (info : String → FileInfo) (fs : List String) :
    ∀ (known : List String) (e : Photo), e ∈ (processLoop info fs known).2 →
      e.id ∉ known := by
  induction fs with
  | nil =>
    intro known e he
    simp [processLoop] at he
  | cons f rest ih =>
    intro known e he
    cases hb : memStr (slugify (basename f)) known with
    | true =>
      simp only [processLoop, hb, if_true] at he
      exact ih known e he
    | false =>
      simp only [processLoop, hb, Bool.false_eq_true, if_false, List.mem_cons] at he
      rcases he with he | he
      · subst he
        intro hmem
        rw [(memStr_iff _ _).mpr (by simpa using hmem)] at hb
        cases hb
      · have h2 := ih (slugify (basename f) :: known) e he
        exact fun hmem => h2 (List.mem_cons_of_mem _ hmem)

theorem processLoop_known_from (info : String → FileInfo) (fs : List String) :
    ∀ (known : List String) (x : String), x ∈ (processLoop info fs known).1 →
      x ∈ known ∨ x ∈ ((processLoop info fs known).2).map (fun p => p.id) := by
  induction fs with
  | nil =>
    intro known x hx
    exact Or.inl (by simpa [processLoop] using hx)
  | cons f rest ih =>
    intro known x hx
    cases hb : memStr (slugify (basename f)) known with
    | true =>
      simp only [processLoop, hb, if_true] at hx ⊢
      exact ih known x hx
    | false =>
      simp only [processLoop, hb, Bool.false_eq_true, if_false] at hx ⊢
      rcases ih (slugify (basename f) :: known) x hx with h | h
      · rcases List.mem_cons.mp h with h1 | h1
        · refine Or.inr ?_
          simp [h1]
        · exact Or.inl h1
      · refine Or.inr ?_
        simp only [List.map_cons, List.mem_cons]
        exact Or.inr h

theorem processLoop_all_known (info : String → FileInfo) (fs : List String) :
    ∀ (known : List String), (∀ f ∈ fs, slugify (basename f) ∈ known) →
      processLoop info fs known = (known, []) := by
  induction fs with
  | nil =>
    intro known _
    rfl
  | cons f rest ih =>
    intro known hall
    have hb : memStr (slugify (basename f)) known = true :=
      (memStr_iff _ _).mpr (hall f (List.mem_cons_self _ _))
    simp only [processLoop, hb, if_true]
    exact ih known (fun f' hf' => hall f' (List.mem_cons_of_mem _ hf'))

/-- C9: the batch processor is idempotent over manifest entries — an image
file whose derived slug id is already a manifest id appends nothing (if
every image file's id is known, the manifest is unchanged), every appended
entry has an id that was not yet in the manifest, and re-running the
processor on the unchanged uploads directory reproduces the same
manifest, so each photo's entry is appended at most once. -/
theorem processPhotos_idempotent (photos : List Photo) (allFiles : List String)
    (info : String → FileInfo) :
    (∀ e ∈ newEntries photos allFiles info, e.id ∉ photos.map (fun p => p.id)) ∧
    ((∀ f ∈ imageFiles allFiles, slugify (basename f) ∈ photos.map (fun p => p.id)) →
      processPhotos photos allFiles info = photos) ∧
    processPhotos (processPhotos photos allFiles info) allFiles info =
      processPhotos photos allFiles info := by
  refine ⟨?_, ?_, ?_⟩
  · intro e he
    unfold newEntries at he
    exact processLoop_new_not_known info (imageFiles allFiles)
      (photos.map (fun p => p.id)) e he
  · intro hall
    have h5 := processLoop_all_known info (imageFiles allFiles)
      (photos.map (fun p => p.id)) hall
    unfold processPhotos newEntries
    rw [h5]
    exact List.append_nil photos
  · have hcover : ∀ f ∈ imageFiles allFiles,
        slugify (basename f) ∈
          (photos ++ newEntries photos allFiles info).map (fun p => p.id) := by
      intro f hf
      have h2 := processLoop_file_covered info (imageFiles allFiles)
        (photos.map (fun p => p.id)) f hf
      have h4 := processLoop_known_from info (imageFiles allFiles)
        (photos.map (fun p => p.id)) _ h2
      rw [List.map_append]
      rcases h4 with h | h
      · exact List.mem_append.mpr (Or.inl h)
      · exact List.mem_append.mpr (Or.inr h)
    have h5 := processLoop_all_known info (imageFiles allFiles)
      ((photos ++ newEntries photos allFiles info).map (fun p => p.id)) hcover
    conv_lhs => rw [processPhotos]
    rw [show newEntries (processPhotos photos allFiles info) allFiles info = [] from ?_]
    · exact List.append_nil _
    · unfold newEntries processPhotos
      rw [h5]

/-- Concrete image metadata for the processor witness. -/
def cFileInfo : FileInfo :=
  { width := 10, height := 5, make := "", model := "", dateTimeOriginal := none }

def cInfoFn : String → FileInfo := fun _ => cFileInfo

/-- C9 witness: a manifest already holding the entry whose id
`"a-new-pic"` derives from `"A new pic.jpg"` is left untouched, and
re-running the processor after a first run over an empty manifest changes
nothing. -/
theorem processPhotos_idempotent_witness :
    processPhotos [mkEntry "A new pic.jpg" "a-new-pic" cFileInfo] ["A new pic.jpg"]
        cInfoFn =
      [mkEntry "A new pic.jpg" "a-new-pic" cFileInfo] ∧
    processPhotos (processPhotos [] ["A new pic.jpg"] cInfoFn) ["A new pic.jpg"] cInfoFn =
      processPhotos [] ["A new pic.jpg"] cInfoFn :=
  ⟨(processPhotos_idempotent [mkEntry "A new pic.jpg" "a-new-pic" cFileInfo]
      ["A new pic.jpg"] cInfoFn).2.1 (by decide),
   (processPhotos_idempotent [] ["A new pic.jpg"] cInfoFn).2.2⟩

end Lehtore
